import Mathlib

/-!
Verification development for the Haldane-model band-structure repository
(`functions.py`, `berryCurve.py`, `graphineHaldaneModel.py`).

The Python sources are shallowly embedded below:
  * parameter bundles (`SimpleNamespace.__dict__`) become insertion-ordered
    association lists `Dict α` of named `Value α` fields (scalar or sequence);
  * `hamiltonian_array` (functions.py lines 258-363) becomes `hamiltonian_array`,
    generic over the external per-point evaluator (`syst.hamiltonian_submatrix`
    composed with `momentum_to_lattice`), exactly as the Python function is
    generic over `syst`;
  * the two `momentum_to_lattice` branches (lines 306-320) become
    `momentum_to_lattice_1D` and `momentum_to_lattice_2D`;
  * the `spectrum` entry point (lines 98-249) becomes `spectrumModel`, keeping
    its control flow, including the fact that `energies` is only assigned when
    the number of swept variables is 1 or 2;
  * the Haldane builder's next-nearest-neighbour hopping assignment
    (lines 66-93) becomes `haldaneNNNList`, and the bulk Bloch Hamiltonian that
    kwant's wraparound produces for it becomes `haldaneBloch`;
  * the aliasing behaviour of `pars = copy(p)` (line 300) is modelled by an
    explicit object heap in `hamiltonian_array_heap`.

Python floats are modelled as exact numbers: the sweep plumbing is generic in
the scalar type (instantiated at `ℚ` for executable witnesses), while the
lattice geometry and Bloch matrices use `ℝ`/`ℂ`.
-/

/-- A field of a parameter bundle: either a plain number (a Python float/int,
not iterable) or a sequence (a list / numpy array, iterable).  Mirrors the
`isinstance(value, collections.Iterable)` dichotomy of functions.py. -/
inductive Value (α : Type) where
  | scalar (x : α)
  | seq (xs : List α)

/-- `isinstance(value, collections.Iterable)` from functions.py lines 325 / 333. -/
def Value.isIterable {α : Type} : Value α → Bool
  | .scalar _ => false
  | .seq _ => true

/-- The list of values looped over for a swept axis (only ever applied to
sequence-valued fields; a scalar is treated as a singleton for totality). -/
def Value.toSeq {α : Type} : Value α → List α
  | .scalar x => [x]
  | .seq xs => xs

/-- An insertion-ordered dictionary, modelling `SimpleNamespace.__dict__`. -/
abbrev Dict (α : Type) := List (String × Value α)

/-- Dictionary lookup (`getattr` / `values.get`). -/
def dictGet {α : Type} (d : Dict α) (key : String) : Option (Value α) :=
  (d.find? (fun f => f.1 == key)).map (fun f => f.2)

/-- Python `dict.__setitem__`: replace the value in place if the key exists,
otherwise append the new binding (insertion order preserved). -/
def dictUpdate {α : Type} (d : Dict α) (key : String) (v : Value α) : Dict α :=
  if d.any (fun f => f.1 == key) then
    d.map (fun f => if f.1 == key then (key, v) else f)
  else
    d ++ [(key, v)]

/-- Python `dict.update` / `pars.__dict__.update(values)` (functions.py line 346). -/
def dictUpdateMany {α : Type} (d : Dict α) (kvs : List (String × Value α)) : Dict α :=
  kvs.foldl (fun acc kv => dictUpdate acc kv.1 kv.2) d

/-- The errors the evaluation pipeline can raise.  `nameConflict` is the
`RuntimeError` of functions.py lines 330-332 (the spec's NameConflictError),
`dispersion1D` the `ValueError` of line 309 (the spec's DomainError),
`latticeMomentum` the `RuntimeError` of lines 318-319, `indexError` the
`IndexError` that `hamiltonians[0]` (line 355) raises on an empty sweep, and
`typeError` any Python-level type error from passing a sequence where a number
is expected. -/
inductive Err where
  | nameConflict (key : String)
  | dispersion1D
  | latticeMomentum
  | indexError
  | typeError

/-- A dense numpy array: its shape together with its row-major flat data, as
produced by `np.array(...).reshape(...)` (functions.py lines 357-358). -/
structure NDArray (M : Type) where
  shape : List ℕ
  data : List M

/-- A dense `n × n` complex matrix, the type of one Bloch Hamiltonian. -/
abbrev Mat (n : ℕ) := Matrix (Fin n) (Fin n) ℂ

/-- The fields of the parameter bundle that are sequences, in insertion order:
the first loop of functions.py lines 323-326. -/
def changingOfParams {α : Type} (p : Dict α) : Dict α :=
  p.filter (fun f => f.2.isIterable)

/-- One step of the momentum loop of functions.py lines 328-334: raise the
name-conflict `RuntimeError` if `key` is already a *changing* parameter, then
record the momentum as a swept axis when it is a sequence. -/
def addMomentum {α : Type} (changing : Dict α) (key : String) (v : Value α) :
    Except Err (Dict α) :=
  if changing.any (fun f => f.1 == key) then .error (.nameConflict key)
  else if v.isIterable then .ok (changing ++ [(key, v)])
  else .ok changing

/-- The complete collection of swept axes (`changing` after both loops of
functions.py lines 323-334). -/
def collectChanging {α : Type} (p : Dict α) (kx ky kz : Value α) :
    Except Err (Dict α) :=
  match addMomentum (changingOfParams p) "k_x" kx with
  | .error e => .error e
  | .ok c1 =>
    match addMomentum c1 "k_y" ky with
    | .error e => .error e
    | .ok c2 => addMomentum c2 "k_z" kz

/-- Insert one binding into a key-sorted list (helper for `sortDict`). -/
def insertSorted {α : Type} (f : String × Value α) :
    Dict α → Dict α
  | [] => [f]
  | g :: gs => if (compare f.1 g.1).isLT then f :: g :: gs else g :: insertSorted f gs

/-- Python's `sorted(changing.items())` (functions.py line 352): ascending
lexicographic order on the (unique) keys. -/
def sortDict {α : Type} : Dict α → Dict α
  | [] => []
  | f :: fs => insertSorted f (sortDict fs)

/-- Helper for `cartProd`: prepend each element of `xs` to every combination. -/
def cartProdAux {α : Type} (xs : List α) (rest : List (List α)) : List (List α) :=
  match xs with
  | [] => []
  | x :: xs' => rest.map (fun c => x :: c) ++ cartProdAux xs' rest

/-- `itertools.product(*values)` (functions.py line 354): the rightmost axis
varies fastest. -/
def cartProd {α : Type} : List (List α) → List (List α)
  | [] => [[]]
  | l :: ls => cartProdAux l (cartProd ls)

/-- Evaluate `f` over a list, propagating the first raised error — the
semantics of the Python list comprehension on functions.py lines 353-354. -/
def evalList {β γ : Type} (f : β → Except Err γ) : List β → Except Err (List γ)
  | [] => .ok []
  | b :: bs =>
    match f b with
    | .error e => .error e
    | .ok c =>
      match evalList f bs with
      | .error e => .error e
      | .ok cs => .ok (c :: cs)

/-- `values.get('k_x', k_x)` (functions.py lines 347-348). -/
def momGet {α : Type} (kvs : List (String × Value α)) (key : String)
    (dflt : Value α) : Value α :=
  (kvs.lookup key).getD dflt

/-- The function `hamiltonian(**values)` of functions.py lines 345-350: update
the (copied) bundle with the current grid-point values, read the momenta with
`values.get`, and call the external evaluator. -/
def pointEval {α : Type} {n : ℕ}
    (evalH : Dict α → Value α → Value α → Value α → Except Err (Mat n))
    (p : Dict α) (kx ky kz : Value α) (names : List String) (combo : List α) :
    Except Err (Mat n) :=
  evalH (dictUpdateMany p (names.zip (combo.map Value.scalar)))
    (momGet (names.zip (combo.map Value.scalar)) "k_x" kx)
    (momGet (names.zip (combo.map Value.scalar)) "k_y" ky)
    (momGet (names.zip (combo.map Value.scalar)) "k_z" kz)

/-- Shallow embedding of `hamiltonian_array` (functions.py lines 258-363),
generic over the external per-point evaluator `evalH`, which models
`syst.hamiltonian_submatrix(args=([pars] + momentum_to_lattice(k)))` for the
concrete kwant system.  Always returns the grid (`return_grid=True`) alongside
the array; the parameter-mutation aspect of line 300 (`pars = copy(p)`) is
modelled separately by `hamiltonian_array_heap`. -/
def hamiltonian_array {α : Type} {n : ℕ}
    (evalH : Dict α → Value α → Value α → Value α → Except Err (Mat n))
    (p : Dict α) (kx ky kz : Value α) :
    Except Err (NDArray (Mat n) × List (String × List α)) :=
  match collectChanging p kx ky kz with
  | .error e => .error e
  | .ok changing =>
    if changing.isEmpty then
      match evalH p kx ky kz with
      | .error e => .error e
      | .ok m => .ok (⟨[1, n, n], [m]⟩, [])
    else
      match evalList
          (pointEval evalH p kx ky kz ((sortDict changing).map (fun f => f.1)))
          (cartProd ((sortDict changing).map (fun f => f.2.toSeq))) with
      | .error e => .error e
      | .ok hams =>
        match hams with
        | [] => .error .indexError
        | _ :: _ =>
          .ok (⟨((sortDict changing).map (fun f => f.2.toSeq)).map List.length
                  ++ [n, n], hams⟩,
               ((sortDict changing).map (fun f => f.1)).zip
                 ((sortDict changing).map (fun f => f.2.toSeq)))

/-- The leading shape of a successful `hamiltonian_array` call ( `[]` on error). -/
def shapeOf {M G : Type} : Except Err (NDArray M × G) → List ℕ
  | .ok (arr, _) => arr.shape
  | .error _ => []

/-- The matrices held by a successful `hamiltonian_array` call (`[]` on error). -/
def hamMatrices {M G : Type} : Except Err (NDArray M × G) → List M
  | .ok (arr, _) => arr.data
  | .error _ => []

/-- Whether an `Except` result is a success. -/
def isOkE {ε γ : Type} : Except ε γ → Bool
  | .ok _ => true
  | .error _ => false

/-- Whether a `hamiltonian_array` call raised the name-conflict error. -/
def isNameConflict {γ : Type} : Except Err γ → Bool
  | .error (.nameConflict _) => true
  | _ => false

/-- A trivial external evaluator over `ℚ` (stands for an arbitrary kwant
system in shape-only statements, as `syst` is arbitrary in the source). -/
def zeroEvalQ : Dict ℚ → Value ℚ → Value ℚ → Value ℚ → Except Err (Mat 2) :=
  fun _ _ _ _ => .ok 0

/-- The transposed period matrix `B = np.array(syst.symmetry.periods).T`
(functions.py line 312) for the bulk honeycomb system built by
`haldaneModel` with its default primitive vectors
`[(1, 0), (1/2, √3/2)]` (functions.py line 16). -/
noncomputable def Bmat : Matrix (Fin 2) (Fin 2) ℝ :=
  !![1, 1/2; 0, Real.sqrt 3 / 2]

/-- `A = B @ np.linalg.inv(B.T @ B)` (functions.py line 313): the matrix whose
least-squares solve expresses a real-space momentum in lattice coordinates. -/
noncomputable def Amat : Matrix (Fin 2) (Fin 2) ℝ :=
  Bmat * (Bmat.transpose * Bmat)⁻¹

/-- The solution vector that `np.linalg.lstsq(A, k)` returns for the (square,
invertible) bulk system: `x = Bᵀ k`, i.e. the dot products of the momentum
with the two primitive vectors. -/
noncomputable def lstsqSol (k : Fin 2 → ℝ) : Fin 2 → ℝ :=
  Bmat.transpose.mulVec k

/-- The squared residual `‖A x − k‖²` of the least-squares solve at its
minimiser (`residuals` of functions.py line 316); `residualSq_is_min` below
checks that `lstsqSol` really is the minimiser. -/
noncomputable def residualSq (k : Fin 2 → ℝ) : ℝ :=
  ∑ i, (Amat.mulVec (lstsqSol k) i - k i) ^ 2

/-- The `D = 2` branch of `momentum_to_lattice` (functions.py lines 315-320)
for the bulk honeycomb system: least-squares solve of `A x = k` on the first
`space_dimensionality = 2` momentum components (`k_z` is dropped by
`k[:space_dimensionality]`), raising the lattice-momentum `RuntimeError`
when the residual exceeds `1e-7`. -/
noncomputable def momentum_to_lattice_2D (kx ky _kz : ℝ) : Except Err (List ℝ) :=
  if 1e-7 < residualSq ![kx, ky] then .error .latticeMomentum
  else .ok [lstsqSol ![kx, ky] 0, lstsqSol ![kx, ky] 1]

/-- The `D = 1` branch of `momentum_to_lattice` (functions.py lines 307-310):
pass `k_x` through, raising the 1D-dispersion `ValueError` when any of the
extra momenta `k[dimensionality:] = [k_y, k_z]` is nonzero (Python's
`any` counts a float as true exactly when it is nonzero). -/
noncomputable def momentum_to_lattice_1D (kx ky kz : ℝ) : Except Err (List ℝ) :=
  if ky ≠ 0 ∨ kz ≠ 0 then .error .dispersion1D
  else .ok [kx]

/-- The fixed relative-offset bonds carrying next-nearest-neighbour hopping on
sublattice `a`: `nnnHoppings_a` of functions.py line 76. -/
def nnnOffsetsA : List (ℤ × ℤ) := [(-1, 0), (0, 1), (1, -1)]

/-- The fixed relative-offset bonds carrying next-nearest-neighbour hopping on
sublattice `b`: `nnnHoppings_b` of functions.py line 77. -/
def nnnOffsetsB : List (ℤ × ℤ) := [(1, 0), (0, -1), (-1, 1)]

/-- The relative cell offsets of the three nearest-neighbour bonds from an `a`
site to `b` sites that `lat.neighbors()` derives geometrically for the default
honeycomb lattice (basis atoms `(0,0)` and `(0, 1/√3)`). -/
def nnOffsets : List (ℤ × ℤ) := [(0, 0), (0, -1), (1, -1)]

/-- The Bloch phase `exp(i k·Δ)` attached by kwant's wraparound to a hopping
with relative cell offset `Δ`, at lattice momenta `(k₁, k₂)`. -/
noncomputable def wrapPhase (k1 k2 : ℝ) (d : ℤ × ℤ) : ℂ :=
  Complex.exp (Complex.I * (k1 * d.1 + k2 * d.2))

/-- The momentum-dependent diagonal contribution of the next-nearest-neighbour
hoppings `1j * t_2` (functions.py line 68) over a set of offsets: each stored
hopping contributes its value plus the Hermitian-conjugate reverse hopping. -/
noncomputable def nnnDiagSum (t2 k1 k2 : ℝ) (offs : List (ℤ × ℤ)) : ℂ :=
  (offs.map (fun d =>
    Complex.I * t2 * wrapPhase k1 k2 d
      + (starRingEnd ℂ) (Complex.I * t2 * wrapPhase k1 k2 d))).sum

/-- The nearest-neighbour structure factor: the sum of Bloch phases over the
three nearest-neighbour bonds (hopping amplitude `p.t`, functions.py line 64). -/
noncomputable def nnSum (k1 k2 : ℝ) : ℂ :=
  (nnOffsets.map (wrapPhase k1 k2)).sum

/-- The 2×2 bulk Bloch Hamiltonian that kwant's
`wraparound(...).hamiltonian_submatrix` produces for the Haldane builder of
functions.py lines 56-95 at lattice momenta `(k₁, k₂)`: staggered onsite
`±m` (lines 56-60), nearest-neighbour `t` times the structure factor
(lines 63-64, 91), and the purely imaginary next-nearest-neighbour terms on the
diagonal (lines 66-68, 92-93). -/
noncomputable def haldaneBloch (m t t2 k1 k2 : ℝ) : Mat 2 :=
  !![(m : ℂ) + nnnDiagSum t2 k1 k2 nnnOffsetsA,
     (t : ℂ) * nnSum k1 k2;
     (t : ℂ) * (starRingEnd ℂ) (nnSum k1 k2),
     (-m : ℂ) + nnnDiagSum t2 k1 k2 nnnOffsetsB]

/-- The per-grid-point evaluator for the bulk (infinite) Haldane system:
read `p.m`, `p.t`, `p.t_2` from the (updated) bundle, map the momentum to
lattice coordinates with the `D = 2` branch, and build the Bloch matrix.  A
sequence where a number is expected, or a missing attribute, is a Python-level
error (`typeError`). -/
noncomputable def evalBulk (q : Dict ℝ) (kx ky kz : Value ℝ) :
    Except Err (Mat 2) :=
  match kx, ky, kz with
  | .scalar a, .scalar b, .scalar c =>
    match dictGet q "m" with
    | some (.scalar m) =>
      match dictGet q "t" with
      | some (.scalar t) =>
        match dictGet q "t_2" with
        | some (.scalar t2) =>
          match momentum_to_lattice_2D a b c with
          | .ok klat =>
            .ok (haldaneBloch m t t2 (klat.getD 0 0) (klat.getD 1 0))
          | .error e => .error e
        | _ => .error .typeError
      | _ => .error .typeError
    | _ => .error .typeError
  | _, _, _ => .error .typeError

/-- `np.linspace(a, b, n)` over the reals (functions.py line 140). -/
noncomputable def linspaceR (a b : ℝ) (n : ℕ) : List ℝ :=
  (List.range n).map (fun i => a + (b - a) * i / (n - 1))

/-- The momentum preprocessing of `spectrum` (functions.py lines 139-143):
a momentum that was not passed defaults to `linspace(-π, π, res)`, and the
momenta at positions at or beyond the system dimensionality are replaced by
the scalar `0`. -/
noncomputable def effMom (dim j res : ℕ) (o : Option (Value ℝ)) : Value ℝ :=
  let v := o.getD (.seq (linspaceR (-Real.pi) Real.pi res))
  if j < dim then v else .scalar 0

/-- The possible outcomes of a `spectrum` call: `energies` is the array
returned when `return_energies` holds (the code applies the external dense
Hermitian eigensolver `np.linalg.eigvalsh` to this Hamiltonian array);
`plot1D`/`plot2D` are the holoviews plot objects; `error0D` is the
`ValueError("A 0D plot requested")` (line 152); `unboundLocal` is the
`UnboundLocalError` raised by `return energies` when `energies` was never
assigned; `error4D` is the `ValueError("Cannot make 4D plots yet.")`
(line 249); `hamError` propagates an error raised inside
`hamiltonian_array`. -/
inductive SpecOutcome (n : ℕ) where
  | energies (arr : NDArray (Mat n))
  | plot1D
  | plot2D
  | error0D
  | unboundLocal
  | error4D
  | hamError (e : Err)

/-- Shallow embedding of the control flow of `spectrum` (functions.py lines
135-249): preprocess the momenta, call `hamiltonian_array` with
`return_grid=True` (line 145), assign `energies` only when the number of swept
variables is 1 or 2 (lines 148-149), raise on a 0D request (lines 151-152),
return `energies` if requested (lines 154-155), otherwise plot or raise the
4D error (line 249). -/
noncomputable def spectrumModel {n : ℕ} (dim : ℕ)
    (evalH : Dict ℝ → Value ℝ → Value ℝ → Value ℝ → Except Err (Mat n))
    (p : Dict ℝ) (kxO kyO kzO : Option (Value ℝ)) (res : ℕ)
    (return_energies : Bool) : SpecOutcome n :=
  match hamiltonian_array evalH p (effMom dim 0 res kxO) (effMom dim 1 res kyO)
      (effMom dim 2 res kzO) with
  | .error e => .hamError e
  | .ok (hams, vars) =>
    if vars.length = 0 then .error0D
    else if return_energies then
      if vars.length = 1 ∨ vars.length = 2 then .energies hams
      else .unboundLocal
    else if vars.length = 1 then .plot1D
    else if vars.length = 2 then .plot2D
    else .error4D

/-- A trivial external evaluator over `ℝ` (an arbitrary kwant system for the
control-flow statements about `spectrum`). -/
def zeroEvalR : Dict ℝ → Value ℝ → Value ℝ → Value ℝ → Except Err (Mat 2) :=
  fun _ _ _ _ => .ok 0

/-- The two sublattices of the honeycomb lattice (`a, b = lat.sublattices`,
functions.py line 73). -/
inductive Sublat where
  | a
  | b
deriving DecidableEq

/-- `nnnHoppings_a = (((-1, 0), a, a), ((0, 1), a, a), ((1, -1), a, a))`
(functions.py line 76): relative offset plus the two site families. -/
def nnnHoppings_a : List ((ℤ × ℤ) × Sublat × Sublat) :=
  [((-1, 0), .a, .a), ((0, 1), .a, .a), ((1, -1), .a, .a)]

/-- `nnnHoppings_b = (((1, 0), b, b), ((0, -1), b, b), ((-1, 1), b, b))`
(functions.py line 77). -/
def nnnHoppings_b : List ((ℤ × ℤ) × Sublat × Sublat) :=
  [((1, 0), .b, .b), ((0, -1), .b, .b), ((-1, 1), .b, .b)]

/-- The next-nearest-neighbour hopping value function
`def nnnHopping(site1, site2, p): return 1j * p.t_2` (functions.py lines 67-68). -/
noncomputable def nnnHopping (t2 : ℝ) : ℂ := Complex.I * t2

/-- The builder's next-nearest-neighbour hopping assignment
(`syst[[kwant.builder.HoppingKind(*h) for h in nnnHoppings_a]] = nnnHopping`
and likewise for `nnnHoppings_b`, functions.py lines 92-93): every one of the
six hopping kinds is mapped to the value function `nnnHopping`. -/
noncomputable def haldaneNNNList :
    List (((ℤ × ℤ) × Sublat × Sublat) × (ℝ → ℂ)) :=
  (nnnHoppings_a ++ nnnHoppings_b).map (fun hk => (hk, nnnHopping))

/-- An object identifier in the mutable-object model. -/
abbrev ObjId := ℕ

/-- A heap of `SimpleNamespace` objects: identifiers mapped to their
attribute dictionaries. -/
abbrev Heap (α : Type) := List (ObjId × Dict α)

/-- Read an object's attribute dictionary. -/
def lookupObj {α : Type} (h : Heap α) (i : ObjId) : Option (Dict α) :=
  (h.find? (fun e => e.1 == i)).map (fun e => e.2)

/-- A fresh identifier: strictly larger than every identifier in the heap. -/
def freshId {α : Type} (h : Heap α) : ObjId :=
  (h.map (fun e => e.1)).foldr max 0 + 1

/-- `pars = copy(p)` (functions.py line 300): allocate a new object holding the
same attribute dictionary (shallow copy). -/
def copyObj {α : Type} (h : Heap α) (src : ObjId) : Heap α × ObjId :=
  let d := (lookupObj h src).getD []
  let i := freshId h
  (h ++ [(i, d)], i)

/-- Overwrite the attribute dictionary of an existing object in place. -/
def writeObj {α : Type} (h : Heap α) (i : ObjId) (d : Dict α) : Heap α :=
  h.map (fun e => if e.1 == i then (i, d) else e)

/-- `pars.__dict__.update(values)` (functions.py line 346) as a heap effect on
the object `i`. -/
def updateObjMany {α : Type} (h : Heap α) (i : ObjId)
    (kvs : List (String × Value α)) : Heap α :=
  writeObj h i (dictUpdateMany ((lookupObj h i).getD []) kvs)

/-- The heap effect of `hamiltonian_array` on the caller's parameter bundle
(object `pId`): copy the bundle (line 300), compute the swept axes, and, per
grid point, mutate only the copy with `pars.__dict__.update(values)`
(line 346).  Matrix evaluation reads the heap but never writes it, so it is
omitted; the returned heap is the heap after the whole sweep. -/
def hamiltonian_array_heap {α : Type} (h : Heap α) (pId : ObjId)
    (kx ky kz : Value α) : Heap α × Except Err Unit :=
  let p := (lookupObj h pId).getD []
  let hp := copyObj h pId
  let h1 := hp.1
  let parsId := hp.2
  match collectChanging p kx ky kz with
  | .error e => (h1, .error e)
  | .ok changing =>
    if changing.isEmpty then (h1, .ok ())
    else
      let sorted := sortDict changing
      let names := sorted.map (fun f => f.1)
      let values := sorted.map (fun f => f.2.toSeq)
      let h2 := (cartProd values).foldl
        (fun hh combo => updateObjMany hh parsId (names.zip (combo.map Value.scalar)))
        h1
      (h2, .ok ())

/-- The complex inner product `⟨u, v⟩ = Σ conj(u_s) v_s` of two eigenvector
columns. -/
noncomputable def innerCx {d : ℕ} (u v : Fin d → ℂ) : ℂ :=
  ∑ s, (starRingEnd ℂ) (u s) * v s

/-- A normalised link variable `U = ⟨ψ(k), ψ(k′)⟩ / |⟨ψ(k), ψ(k′)⟩|` between
eigenvectors at neighbouring grid points. -/
noncomputable def linkU {d : ℕ} (u v : Fin d → ℂ) : ℂ :=
  innerCx u v / Complex.abs (innerCx u v)

/-- The Berry phase of one elementary plaquette: minus the imaginary part of
the logarithm of the product of the four normalised link variables around the
closed loop. -/
noncomputable def plaquettePhase {d : ℕ} (u00 u10 u11 u01 : Fin d → ℂ) : ℝ :=
  -(Complex.log (linkU u00 u10 * linkU u10 u11 * linkU u11 u01 * linkU u01 u00)).im

/-- Modelled from the spec: the Berry curvature engine `berryCurvature` is
imported by `src/berryCurve.py` (line 8) from `functions`, but no definition of
it appears in the repository sources, so it is modelled from spec §4.4: given
eigenvectors `ev i j band` at every grid point (produced by the external dense
Hermitian eigensolver), it returns curvature values only at the interior grid
points `(i+1, j+1)` of the `kxs × kys` momentum grid — for each interior point
and each band, the plaquette link-variable Berry phase divided by the plaquette
area. -/
noncomputable def berryCurvature (nb : ℕ)
    (ev : ℕ → ℕ → Fin nb → (Fin nb → ℂ)) (kxs kys : List ℝ) :
    List (List (List ℝ)) :=
  (List.range (kxs.length - 2)).map (fun i =>
    (List.range (kys.length - 2)).map (fun j =>
      (List.finRange nb).map (fun band =>
        let area := (kxs.getD (i + 2) 0 - kxs.getD (i + 1) 0) *
                    (kys.getD (j + 2) 0 - kys.getD (j + 1) 0)
        plaquettePhase (ev (i + 1) (j + 1) band) (ev (i + 2) (j + 1) band)
          (ev (i + 2) (j + 2) band) (ev (i + 1) (j + 2) band) / area)))

/-! Helper lemmas. -/

/-- Mapping a function that is constant on `List.range` gives a replicate. -/
theorem map_range_const {β : Type} (k : ℕ) (f : ℕ → β) (c : β)
    (hf : ∀ i, f i = c) : (List.range k).map f = List.replicate k c := by
  induction k with
  | zero => rfl
  | succ k ih =>
    rw [List.range_succ, List.map_append, ih, List.replicate_succ']
    simp [hf]

/-- C1: for every momentum grid (`N` values of `k_x` by `N` values of `k_y`,
stated for arbitrary axis lengths) and every eigenvector field, the Berry
curvature engine returns a real array of shape
`(len(kxs) - 2, len(kys) - 2, num_bands)`: curvature values only at interior
grid points. -/
theorem C1_berry_curvature_shape (nb : ℕ)
    (ev : ℕ → ℕ → Fin nb → (Fin nb → ℂ)) (kxs kys : List ℝ) :
    (berryCurvature nb ev kxs kys).length = kxs.length - 2 ∧
    (berryCurvature nb ev kxs kys).map List.length
      = List.replicate (kxs.length - 2) (kys.length - 2) ∧
    (berryCurvature nb ev kxs kys).map (fun row => row.map List.length)
      = List.replicate (kxs.length - 2) (List.replicate (kys.length - 2) nb) := by
  refine ⟨?_, ?_, ?_⟩
  · simp [berryCurvature]
  · unfold berryCurvature
    rw [List.map_map]
    apply map_range_const
    intro i
    simp [Function.comp]
  · unfold berryCurvature
    rw [List.map_map]
    apply map_range_const
    intro i
    simp only [Function.comp]
    rw [List.map_map]
    apply map_range_const
    intro j
    simp [Function.comp]

/-- C7: on a system with exactly one retained translational direction (a
ribbon), the momentum mapping inside `hamiltonian_array` passes `k_x` through
directly as the single lattice momentum, and raises the 1D-dispersion error
(the spec's DomainError) whenever `k_y` or `k_z` is nonzero. -/
theorem C7_ribbon_momentum (kx ky kz : ℝ) :
    ((ky = 0 ∧ kz = 0) → momentum_to_lattice_1D kx ky kz = .ok [kx]) ∧
    ((ky ≠ 0 ∨ kz ≠ 0) →
      momentum_to_lattice_1D kx ky kz = .error .dispersion1D) := by
  constructor
  · intro h
    unfold momentum_to_lattice_1D
    rw [if_neg]
    rintro (hy | hz)
    · exact hy h.1
    · exact hz h.2
  · intro h
    unfold momentum_to_lattice_1D
    rw [if_pos h]

/-- Witness for C7: at `k = (1, 0, 0)` the mapping returns `[k_x]`, and at
`k = (1, 2, 0)` it raises the 1D-dispersion error. -/
theorem C7_ribbon_momentum_witness :
    (((0:ℝ) = 0 ∧ (0:ℝ) = 0) ∧ momentum_to_lattice_1D 1 0 0 = .ok [1]) ∧
    (((2:ℝ) ≠ 0 ∨ (0:ℝ) ≠ 0) ∧
      momentum_to_lattice_1D 1 2 0 = .error .dispersion1D) :=
  ⟨⟨⟨rfl, rfl⟩, (C7_ribbon_momentum 1 0 0).1 ⟨rfl, rfl⟩⟩,
   ⟨Or.inl two_ne_zero, (C7_ribbon_momentum 1 2 0).2 (Or.inl two_ne_zero)⟩⟩

/-- C8: the builder assigns the value function `nnnHopping` — whose value is
`i·t_2`, purely imaginary — to exactly the six fixed relative-offset bonds
`{(-1,0),(0,1),(1,-1)}` within sublattice `a` and `{(1,0),(0,-1),(-1,1)}`
within sublattice `b`, each bond connecting two sites of the same
sublattice. -/
theorem C8_nnn_hoppings :
    haldaneNNNList
      = [((-1, 0), Sublat.a, Sublat.a), ((0, 1), Sublat.a, Sublat.a),
         ((1, -1), Sublat.a, Sublat.a), ((1, 0), Sublat.b, Sublat.b),
         ((0, -1), Sublat.b, Sublat.b),
         ((-1, 1), Sublat.b, Sublat.b)].map (fun hk => (hk, nnnHopping)) ∧
    (haldaneNNNList.map (fun e => e.1)).all
      (fun hk => hk.2.1 == hk.2.2) = true ∧
    ∀ t2 : ℝ, nnnHopping t2 = Complex.I * t2 ∧ (nnnHopping t2).re = 0 ∧
      (nnnHopping t2).im = t2 := by
  refine ⟨rfl, rfl, fun t2 => ⟨rfl, ?_, ?_⟩⟩
  · simp [nnnHopping]
  · simp [nnnHopping]

/-- The transpose of the period matrix, evaluated. -/
theorem Btrans_eq : Bmat.transpose = !![1, 0; 1/2, Real.sqrt 3 / 2] := by
  ext i j
  fin_cases i <;> fin_cases j <;> simp [Bmat, Matrix.transpose_apply]

/-- The normal matrix `BᵀB` of the bulk honeycomb periods evaluates to
`[[1, 1/2], [1/2, 1]]`. -/
theorem BtB_eq : Bmat.transpose * Bmat = !![1, 1/2; 1/2, 1] := by
  have h3 : Real.sqrt 3 * Real.sqrt 3 = 3 :=
    Real.mul_self_sqrt (by norm_num)
  rw [Btrans_eq]
  unfold Bmat
  rw [Matrix.mul_fin_two]
  ext i j
  fin_cases i <;> fin_cases j
  · norm_num
  · norm_num
  · norm_num
  · simp
    linear_combination (1/4 : ℝ) * h3

/-- The inverse of the normal matrix. -/
theorem BtB_inv_eq :
    (!![1, 1/2; 1/2, 1] : Matrix (Fin 2) (Fin 2) ℝ)⁻¹
      = !![4/3, -(2/3); -(2/3), 4/3] := by
  apply Matrix.inv_eq_right_inv
  rw [Matrix.mul_fin_two]
  ext i j
  fin_cases i <;> fin_cases j <;>
    simp [Matrix.one_apply] <;> norm_num

/-- The pseudo-inverse projection matrix `A = B (BᵀB)⁻¹` evaluated. -/
theorem Amat_eq :
    Amat = !![1, 0; -(Real.sqrt 3) / 3, 2 * Real.sqrt 3 / 3] := by
  unfold Amat
  rw [BtB_eq, BtB_inv_eq]
  unfold Bmat
  rw [Matrix.mul_fin_two]
  ext i j
  fin_cases i <;> fin_cases j <;> simp <;> ring

/-- The least-squares solution is the vector of dot products of the momentum
with the two primitive vectors. -/
theorem lstsqSol_eq (k : Fin 2 → ℝ) :
    lstsqSol k = ![k 0, k 0 / 2 + Real.sqrt 3 / 2 * k 1] := by
  rw [lstsqSol, Btrans_eq]
  funext i
  fin_cases i <;>
    simp [Matrix.mulVec, Matrix.dotProduct, Fin.sum_univ_two] <;> ring

/-- The least-squares system is solved exactly: `A (Bᵀ k) = k`. -/
theorem Amat_mulVec_lstsqSol (k : Fin 2 → ℝ) :
    Amat.mulVec (lstsqSol k) = k := by
  have h3 : Real.sqrt 3 * Real.sqrt 3 = 3 :=
    Real.mul_self_sqrt (by norm_num)
  rw [Amat_eq, lstsqSol_eq]
  funext i
  fin_cases i
  · simp [Matrix.mulVec, Matrix.dotProduct, Fin.sum_univ_two]
  · simp [Matrix.mulVec, Matrix.dotProduct, Fin.sum_univ_two]
    linear_combination (k 1 / 3) * h3

/-- For the bulk honeycomb system the least-squares residual vanishes for
every requested momentum. -/
theorem residualSq_zero (k : Fin 2 → ℝ) : residualSq k = 0 := by
  unfold residualSq
  rw [Amat_mulVec_lstsqSol]
  simp

/-- Sanity check that `lstsqSol` is the least-squares minimiser: its residual
is no larger than the residual of any other candidate solution. -/
theorem residualSq_is_min (k x : Fin 2 → ℝ) :
    residualSq k ≤ ∑ i, (Amat.mulVec x i - k i) ^ 2 := by
  rw [residualSq_zero]
  positivity

/-- The `D = 2` momentum mapping never raises: it returns the lattice momenta
`(k·a₁, k·a₂)`, ignoring `k_z`. -/
theorem momentum_to_lattice_2D_eq (kx ky kz : ℝ) :
    momentum_to_lattice_2D kx ky kz
      = .ok [kx, kx / 2 + Real.sqrt 3 / 2 * ky] := by
  unfold momentum_to_lattice_2D
  rw [if_neg (by rw [residualSq_zero]; norm_num)]
  rw [lstsqSol_eq]
  simp

/-- C4 (counterexample): for the repository's two-direction (bulk honeycomb)
system no momentum whatsoever makes the lattice-projection `RuntimeError`
fire — the claim's "for some momentum … this error is actually raised" part
is false, because the projection matrix is square and invertible, so the
least-squares residual is always zero. -/
theorem C4_error_unreachable_counterexample :
    ¬ ∃ kx ky kz : ℝ,
      momentum_to_lattice_2D kx ky kz = .error .latticeMomentum := by
  rintro ⟨kx, ky, kz, h⟩
  rw [momentum_to_lattice_2D_eq] at h
  exact Except.noConfusion h

/-- C4 (amended): for the bulk system, `hamiltonian_array` maps the requested
momentum onto lattice coordinates by the least-squares projection onto the
retained primitive vectors (returning the dot products `k·a₁`, `k·a₂` and
ignoring `k_z`); the residual test against `1e-7` is present in the code but
the residual is identically zero, so the `RuntimeError` is never raised, for
any momentum. -/
theorem C4_lattice_projection_amended (kx ky kz : ℝ) :
    residualSq ![kx, ky] = 0 ∧
    momentum_to_lattice_2D kx ky kz
      = .ok [kx, kx / 2 + Real.sqrt 3 / 2 * ky] :=
  ⟨residualSq_zero _, momentum_to_lattice_2D_eq kx ky kz⟩

/-- Length of the Cartesian-product helper. -/
theorem cartProdAux_length {α : Type} (xs : List α) (rest : List (List α)) :
    (cartProdAux xs rest).length = xs.length * rest.length := by
  induction xs with
  | nil => simp [cartProdAux]
  | cons x xs ih =>
    simp [cartProdAux, ih, Nat.succ_mul, Nat.add_comm]

/-- The number of grid points is the product of the axis lengths. -/
theorem cartProd_length {α : Type} (ls : List (List α)) :
    (cartProd ls).length = (ls.map List.length).prod := by
  induction ls with
  | nil => rfl
  | cons l ls ih => simp [cartProd, cartProdAux_length, ih]

/-- Members of the Cartesian-product helper are a head from `xs` with a tail
from `rest`. -/
theorem mem_cartProdAux {α : Type} {xs : List α} {rest : List (List α)}
    {c : List α} (h : c ∈ cartProdAux xs rest) :
    ∃ x ∈ xs, ∃ r ∈ rest, c = x :: r := by
  induction xs with
  | nil => simp [cartProdAux] at h
  | cons x xs ih =>
    rw [cartProdAux, List.mem_append] at h
    rcases h with h | h
    · obtain ⟨r, hr, rfl⟩ := List.mem_map.mp h
      exact ⟨x, List.mem_cons_self x xs, r, hr, rfl⟩
    · obtain ⟨x', hx', r, hr, rfl⟩ := ih h
      exact ⟨x', List.mem_cons_of_mem x hx', r, hr, rfl⟩

/-- Every member of the Cartesian product has one entry per axis. -/
theorem mem_cartProd_length {α : Type} {ls : List (List α)} {c : List α}
    (h : c ∈ cartProd ls) : c.length = ls.length := by
  induction ls generalizing c with
  | nil =>
    rw [cartProd, List.mem_singleton] at h
    simp [h]
  | cons l ls ih =>
    obtain ⟨x, _, r, hr, rfl⟩ := mem_cartProdAux h
    simp [ih hr]

/-- A successful `evalList` preserves the length. -/
theorem evalList_ok_length {β γ : Type} {f : β → Except Err γ} :
    ∀ {l : List β} {res : List γ}, evalList f l = .ok res →
      res.length = l.length := by
  intro l
  induction l with
  | nil =>
    intro res h
    rw [evalList] at h
    cases h
    rfl
  | cons b bs ih =>
    intro res h
    rw [evalList] at h
    cases hfb : f b with
    | error e => rw [hfb] at h; exact Except.noConfusion h
    | ok c =>
      rw [hfb] at h
      cases hrest : evalList f bs with
      | error e => rw [hrest] at h; exact Except.noConfusion h
      | ok cs =>
        rw [hrest] at h
        cases h
        simp [ih hrest]

/-- If `f` succeeds on every element then `evalList` succeeds. -/
theorem evalList_ok_of_forall {β γ : Type} (f : β → Except Err γ)
    (hf : ∀ b, isOkE (f b) = true) :
    ∀ l : List β, ∃ res, evalList f l = .ok res := by
  intro l
  induction l with
  | nil => exact ⟨[], rfl⟩
  | cons b bs ih =>
    obtain ⟨res, hres⟩ := ih
    cases hfb : f b with
    | error e =>
      have := hf b
      rw [hfb] at this
      exact absurd this (by simp [isOkE])
    | ok c => exact ⟨c :: res, by rw [evalList, hfb, hres]⟩

/-- Every element of a successful `evalList` result comes from applying `f`
to some element of the input. -/
theorem evalList_mem {β γ : Type} {f : β → Except Err γ} :
    ∀ {l : List β} {res : List γ}, evalList f l = .ok res →
      ∀ c ∈ res, ∃ b ∈ l, f b = .ok c := by
  intro l
  induction l with
  | nil =>
    intro res h c hc
    rw [evalList] at h
    cases h
    simp at hc
  | cons b bs ih =>
    intro res h c hc
    rw [evalList] at h
    cases hfb : f b with
    | error e => rw [hfb] at h; exact Except.noConfusion h
    | ok c0 =>
      rw [hfb] at h
      cases hrest : evalList f bs with
      | error e => rw [hrest] at h; exact Except.noConfusion h
      | ok cs =>
        rw [hrest] at h
        cases h
        rcases List.mem_cons.mp hc with rfl | hc
        · exact ⟨b, List.mem_cons_self b bs, hfb⟩
        · obtain ⟨b', hb', hfb'⟩ := ih hrest c hc
          exact ⟨b', List.mem_cons_of_mem b hb', hfb'⟩

/-- Rewriting helper: `hamiltonian_array` in the swept branch. -/
theorem hamiltonian_array_eq_sweep {α : Type} {n : ℕ}
    (evalH : Dict α → Value α → Value α → Value α → Except Err (Mat n))
    (p : Dict α) (kx ky kz : Value α) (ch : Dict α)
    (hf : ch.isEmpty = false)
    (hch : collectChanging p kx ky kz = .ok ch) :
    hamiltonian_array evalH p kx ky kz =
      match evalList (pointEval evalH p kx ky kz
            ((sortDict ch).map (fun f => f.1)))
          (cartProd ((sortDict ch).map (fun f => f.2.toSeq))) with
      | .error e => .error e
      | .ok hams =>
        match hams with
        | [] => .error .indexError
        | _ :: _ =>
          .ok (⟨((sortDict ch).map (fun f => f.2.toSeq)).map List.length
                  ++ [n, n], hams⟩,
               ((sortDict ch).map (fun f => f.1)).zip
                 ((sortDict ch).map (fun f => f.2.toSeq))) := by
  unfold hamiltonian_array
  rw [hch]
  simp [hf]

/-- C2 (counterexample): sweeping `m` with `L1 = 2` values and `k_x` with
`L2 = 3` values produces leading shape `(3, 2)`, not the claimed `(L1, L2) =
(2, 3)`. -/
theorem C2_shape_counterexample :
    shapeOf (hamiltonian_array zeroEvalQ
        [("m", Value.seq [(0:ℚ), 1]), ("t", .scalar 1), ("t_2", .scalar 0),
         ("phi", .scalar 0)]
        (.seq [0, 1, 2]) (.scalar 0) (.scalar 0)) = [3, 2, 2, 2] ∧
    shapeOf (hamiltonian_array zeroEvalQ
        [("m", Value.seq [(0:ℚ), 1]), ("t", .scalar 1), ("t_2", .scalar 0),
         ("phi", .scalar 0)]
        (.seq [0, 1, 2]) (.scalar 0) (.scalar 0)) ≠ [2, 3, 2, 2] := by
  constructor
  · decide
  · decide

/-- C2 (amended): sweeping a bundle whose `m` field is a sequence of length
`L1` (all other fields scalar) together with a `k_x` sequence of length `L2`
yields an array of leading shape `(L2, L1)`: the leading axes are ordered by
the alphabetical sort of the swept axis names, and `k_x` sorts before `m`, so
the `k_x` axis (length `L2`) comes first. -/
theorem C2_shape_amended {α : Type} {n : ℕ}
    (evalH : Dict α → Value α → Value α → Value α → Except Err (Mat n))
    (hE : ∀ q a b c, isOkE (evalH q a b c) = true)
    (ms xs : List α) (hms : ms ≠ []) (hxs : xs ≠ [])
    (pre post : Dict α)
    (hpre : ∀ f ∈ pre, f.2.isIterable = false)
    (hpost : ∀ f ∈ post, f.2.isIterable = false)
    (c1 c2 : α) :
    shapeOf (hamiltonian_array evalH (pre ++ ("m", .seq ms) :: post)
        (.seq xs) (.scalar c1) (.scalar c2))
      = [xs.length, ms.length, n, n] := by
  have hc0 : changingOfParams (pre ++ ("m", Value.seq ms) :: post)
      = [("m", Value.seq ms)] := by
    unfold changingOfParams
    rw [List.filter_append, List.filter_cons_of_pos (by rfl),
      List.filter_eq_nil_iff.mpr (fun f hf => by simp [hpre f hf]),
      List.filter_eq_nil_iff.mpr (fun f hf => by simp [hpost f hf])]
    rfl
  have hch : collectChanging (pre ++ ("m", Value.seq ms) :: post)
      (Value.seq xs) (Value.scalar c1) (Value.scalar c2)
      = .ok [("m", Value.seq ms), ("k_x", Value.seq xs)] := by
    unfold collectChanging
    rw [hc0]
    rfl
  rw [hamiltonian_array_eq_sweep _ _ _ _ _ _ (by rfl) hch]
  obtain ⟨res, hres⟩ := evalList_ok_of_forall
    (pointEval evalH (pre ++ ("m", Value.seq ms) :: post)
      (Value.seq xs) (Value.scalar c1) (Value.scalar c2)
      ((sortDict [("m", Value.seq ms), ("k_x", Value.seq xs)]).map
        (fun f => f.1)))
    (fun b => by rw [pointEval]; exact hE _ _ _ _)
    (cartProd ((sortDict [("m", Value.seq ms), ("k_x", Value.seq xs)]).map
      (fun f => f.2.toSeq)))
  have hlen := evalList_ok_length hres
  rw [hres]
  cases res with
  | nil =>
    exfalso
    rw [cartProd_length] at hlen
    have hxl : xs.length ≠ 0 := fun h => hxs (List.length_eq_zero.mp h)
    have hml : ms.length ≠ 0 := fun h => hms (List.length_eq_zero.mp h)
    have : xs.length * (ms.length * 1) = 0 := hlen.symm
    rcases Nat.mul_eq_zero.mp this with h | h
    · exact hxl h
    · rcases Nat.mul_eq_zero.mp h with h' | h'
      · exact hml h'
      · exact one_ne_zero h'
  | cons hd tl => rfl

/-- Witness for C2 (amended): a concrete sweep with `L1 = 2` values of `m`
and `L2 = 3` values of `k_x` has leading shape `(3, 2)`. -/
theorem C2_shape_amended_witness :
    (∀ (q : Dict ℚ) (a b c : Value ℚ), isOkE (zeroEvalQ q a b c) = true) ∧
    ([(0:ℚ), 1] ≠ ([] : List ℚ)) ∧ ([(0:ℚ), 1, 2] ≠ ([] : List ℚ)) ∧
    (∀ f ∈ [("t", Value.scalar (1:ℚ))], f.2.isIterable = false) ∧
    (∀ f ∈ [("t_2", Value.scalar (0:ℚ)), ("phi", Value.scalar 0)],
      f.2.isIterable = false) ∧
    shapeOf (hamiltonian_array zeroEvalQ
        ([("t", Value.scalar (1:ℚ))] ++ ("m", Value.seq [0, 1]) ::
          [("t_2", Value.scalar 0), ("phi", Value.scalar 0)])
        (.seq [0, 1, 2]) (.scalar 0) (.scalar 0))
      = [3, 2, 2, 2] := by
  refine ⟨fun q a b c => rfl, by simp, by simp, ?_, ?_, ?_⟩
  · intro f hf
    rcases List.mem_singleton.mp hf with rfl
    rfl
  · intro f hf
    rcases List.mem_cons.mp hf with rfl | hf
    · rfl
    · rcases List.mem_singleton.mp hf with rfl
      rfl
  · exact C2_shape_amended zeroEvalQ (fun q a b c => rfl)
      [0, 1] [0, 1, 2] (by simp) (by simp)
      [("t", Value.scalar 1)] [("t_2", Value.scalar 0), ("phi", Value.scalar 0)]
      (by intro f hf; rcases List.mem_singleton.mp hf with rfl; rfl)
      (by
        intro f hf
        rcases List.mem_cons.mp hf with rfl | hf
        · rfl
        · rcases List.mem_singleton.mp hf with rfl
          rfl)
      0 0

/-- If a key occurs among a changing-set's keys, `List.any` detects it. -/
theorem any_keys_of_mem {α : Type} {ch : Dict α} {k : String}
    (h : k ∈ ch.map (fun f => f.1)) :
    ch.any (fun f => f.1 == k) = true := by
  rw [List.any_eq_true]
  obtain ⟨f, hf, hfk⟩ := List.mem_map.mp h
  exact ⟨f, hf, by simp [hfk]⟩

/-- `addMomentum` raises the name-conflict error when the key is present. -/
theorem addMomentum_conflict {α : Type} {ch : Dict α} {key : String}
    (v : Value α) (h : ch.any (fun f => f.1 == key) = true) :
    addMomentum ch key v = .error (.nameConflict key) := by
  unfold addMomentum
  rw [if_pos h]

/-- A successful `addMomentum` keeps every existing key. -/
theorem addMomentum_ok_keys_mono {α : Type} {ch ch' : Dict α} {key : String}
    {v : Value α} (h : addMomentum ch key v = .ok ch') :
    ∀ k ∈ ch.map (fun f => f.1), k ∈ ch'.map (fun f => f.1) := by
  unfold addMomentum at h
  split at h
  · exact Except.noConfusion h
  · split at h
    · cases h
      intro k hk
      simp only [List.map_append, List.mem_append]
      exact Or.inl hk
    · cases h
      intro k hk
      exact hk

/-- Every key of a successful `addMomentum` result is an old key or the new
momentum name. -/
theorem addMomentum_ok_keys {α : Type} {ch ch' : Dict α} {key : String}
    {v : Value α} (h : addMomentum ch key v = .ok ch') :
    ∀ k ∈ ch'.map (fun f => f.1), k ∈ ch.map (fun f => f.1) ∨ k = key := by
  unfold addMomentum at h
  split at h
  · exact Except.noConfusion h
  · split at h
    · cases h
      intro k hk
      simp only [List.map_append, List.mem_append] at hk
      rcases hk with hk | hk
      · exact Or.inl hk
      · simp at hk
        exact Or.inr hk
    · cases h
      intro k hk
      exact Or.inl hk

/-- C3 (counterexample): a bundle with a *scalar* field named `k_x` does not
raise the name-conflict error — `hamiltonian_array` succeeds silently, because
the conflict test only inspects the sequence-valued (changing) fields. -/
theorem C3_scalar_conflict_counterexample :
    isOkE (hamiltonian_array zeroEvalQ
        [("k_x", Value.scalar (1:ℚ)), ("t", .scalar 1)]
        (.scalar 0) (.scalar 0) (.scalar 0)) = true ∧
    isNameConflict (hamiltonian_array zeroEvalQ
        [("k_x", Value.scalar (1:ℚ)), ("t", .scalar 1)]
        (.scalar 0) (.scalar 0) (.scalar 0)) = false := by
  constructor
  · decide
  · decide

/-- A failed `addMomentum` always carries the name-conflict error for its
momentum key. -/
theorem addMomentum_error_eq {α : Type} {ch : Dict α} {key : String}
    {v : Value α} {e : Err} (h : addMomentum ch key v = .error e) :
    e = .nameConflict key := by
  unfold addMomentum at h
  split at h
  · cases h
    rfl
  · split at h <;> exact Except.noConfusion h

/-- A name conflict detected while collecting the swept axes makes the whole
`hamiltonian_array` call report it. -/
theorem isNameConflict_of_collect {α : Type} {n : ℕ}
    (evalH : Dict α → Value α → Value α → Value α → Except Err (Mat n))
    (p : Dict α) (kx ky kz : Value α) (key : String)
    (h : collectChanging p kx ky kz = .error (.nameConflict key)) :
    isNameConflict (hamiltonian_array evalH p kx ky kz) = true := by
  unfold hamiltonian_array
  rw [h]
  rfl

/-- C3 (amended): a bundle field named `k_x`, `k_y` or `k_z` makes
`hamiltonian_array` fail immediately with the name-conflict error exactly when
that field holds a sequence; scalar fields with reserved names are silently
accepted (see the counterexample). -/
theorem C3_name_conflict_amended {α : Type} {n : ℕ}
    (evalH : Dict α → Value α → Value α → Value α → Except Err (Mat n))
    (p : Dict α) (kx ky kz : Value α) (name : String) (xs : List α)
    (hname : name = "k_x" ∨ name = "k_y" ∨ name = "k_z")
    (hmem : (name, Value.seq xs) ∈ p) :
    isNameConflict (hamiltonian_array evalH p kx ky kz) = true := by
  have hmem0 : name ∈ (changingOfParams p).map (fun f => f.1) := by
    rw [List.mem_map]
    refine ⟨(name, Value.seq xs), ?_, rfl⟩
    rw [changingOfParams, List.mem_filter]
    exact ⟨hmem, rfl⟩
  have hcc : ∃ key, collectChanging p kx ky kz
      = .error (.nameConflict key) := by
    rcases hname with rfl | rfl | rfl
    · refine ⟨"k_x", ?_⟩
      unfold collectChanging
      rw [addMomentum_conflict kx (any_keys_of_mem hmem0)]
    · cases h1 : addMomentum (changingOfParams p) "k_x" kx with
      | error e =>
        refine ⟨"k_x", ?_⟩
        unfold collectChanging
        rw [addMomentum_error_eq h1] at h1
        rw [h1]
      | ok c1 =>
        refine ⟨"k_y", ?_⟩
        unfold collectChanging
        rw [h1]
        show (match addMomentum c1 "k_y" ky with
              | Except.error e => Except.error e
              | Except.ok c2 => addMomentum c2 "k_z" kz)
            = Except.error (Err.nameConflict "k_y")
        rw [addMomentum_conflict ky
          (any_keys_of_mem (addMomentum_ok_keys_mono h1 _ hmem0))]
    · cases h1 : addMomentum (changingOfParams p) "k_x" kx with
      | error e =>
        refine ⟨"k_x", ?_⟩
        unfold collectChanging
        rw [addMomentum_error_eq h1] at h1
        rw [h1]
      | ok c1 =>
        have hk1 := addMomentum_ok_keys_mono h1 _ hmem0
        cases h2 : addMomentum c1 "k_y" ky with
        | error e =>
          refine ⟨"k_y", ?_⟩
          unfold collectChanging
          rw [h1]
          show (match addMomentum c1 "k_y" ky with
                | Except.error e => Except.error e
                | Except.ok c2 => addMomentum c2 "k_z" kz)
              = Except.error (Err.nameConflict "k_y")
          rw [addMomentum_error_eq h2] at h2
          rw [h2]
        | ok c2 =>
          refine ⟨"k_z", ?_⟩
          unfold collectChanging
          rw [h1]
          show (match addMomentum c1 "k_y" ky with
                | Except.error e => Except.error e
                | Except.ok c2 => addMomentum c2 "k_z" kz)
              = Except.error (Err.nameConflict "k_z")
          rw [h2]
          show addMomentum c2 "k_z" kz = Except.error (Err.nameConflict "k_z")
          exact addMomentum_conflict kz
            (any_keys_of_mem (addMomentum_ok_keys_mono h2 _ hk1))
  obtain ⟨key, h⟩ := hcc
  exact isNameConflict_of_collect evalH p kx ky kz key h

/-- Witness for C3 (amended): a bundle holding a sequence-valued field named
`k_y` makes `hamiltonian_array` raise the name-conflict error. -/
theorem C3_name_conflict_amended_witness :
    ("k_y" = "k_x" ∨ "k_y" = "k_y" ∨ "k_y" = "k_z") ∧
    (("k_y", Value.seq [(1:ℚ), 2]) ∈ [("k_y", Value.seq [(1:ℚ), 2])]) ∧
    isNameConflict (hamiltonian_array zeroEvalQ
        [("k_y", Value.seq [(1:ℚ), 2])]
        (.scalar 0) (.scalar 0) (.scalar 0)) = true :=
  ⟨Or.inr (Or.inl rfl), List.mem_singleton.mpr rfl,
   C3_name_conflict_amended zeroEvalQ _ _ _ _ "k_y" [1, 2]
     (Or.inr (Or.inl rfl)) (List.mem_singleton.mpr rfl)⟩

/-- Rewriting helper: `spectrumModel` once `hamiltonian_array` has
succeeded. -/
theorem spectrumModel_ok {n : ℕ} (dim : ℕ)
    (evalH : Dict ℝ → Value ℝ → Value ℝ → Value ℝ → Except Err (Mat n))
    (p : Dict ℝ) (kxO kyO kzO : Option (Value ℝ)) (res : ℕ) (re : Bool)
    (arr : NDArray (Mat n)) (vars : List (String × List ℝ))
    (hok : hamiltonian_array evalH p (effMom dim 0 res kxO)
        (effMom dim 1 res kyO) (effMom dim 2 res kzO) = .ok (arr, vars)) :
    spectrumModel dim evalH p kxO kyO kzO res re =
      (if vars.length = 0 then .error0D
       else if re then
         (if vars.length = 1 ∨ vars.length = 2 then .energies arr
          else .unboundLocal)
       else if vars.length = 1 then .plot1D
       else if vars.length = 2 then .plot2D
       else .error4D) := by
  unfold spectrumModel
  rw [hok]

/-- C5 (counterexample): with three swept axes (`m`, `k_x`, `k_y`) and
`return_energies = True`, `spectrum` fails with the unbound-local error on
`return energies` (never assigned for more than 2 axes), not with the
dimensionality ("cannot make 4D plots") error the claim names. -/
theorem C5_return_energies_counterexample :
    spectrumModel 2 zeroEvalR [("m", Value.seq [(0:ℝ), 1])]
      (some (.seq [0, 1])) (some (.seq [0, 1])) (some (.scalar 0)) 3 true
      = .unboundLocal ∧
    spectrumModel 2 zeroEvalR [("m", Value.seq [(0:ℝ), 1])]
      (some (.seq [0, 1])) (some (.seq [0, 1])) (some (.scalar 0)) 3 true
      ≠ .error4D := by
  constructor
  · rfl
  · intro h
    exact SpecOutcome.noConfusion h

/-- C5 (amended): with more than 2 swept axes, the plotting-oriented
`spectrum` entry point always fails — with the dimensionality error
("Cannot make 4D plots yet.") when `return_energies` is false, but with an
`UnboundLocalError` (reading the never-assigned `energies`) when
`return_energies` is true. -/
theorem C5_dimensionality_amended {n : ℕ} (dim : ℕ)
    (evalH : Dict ℝ → Value ℝ → Value ℝ → Value ℝ → Except Err (Mat n))
    (p : Dict ℝ) (kxO kyO kzO : Option (Value ℝ)) (res : ℕ)
    (arr : NDArray (Mat n)) (vars : List (String × List ℝ))
    (hok : hamiltonian_array evalH p (effMom dim 0 res kxO)
        (effMom dim 1 res kyO) (effMom dim 2 res kzO) = .ok (arr, vars))
    (h3 : 2 < vars.length) :
    spectrumModel dim evalH p kxO kyO kzO res true = .unboundLocal ∧
    spectrumModel dim evalH p kxO kyO kzO res false = .error4D := by
  have h0 : ¬ vars.length = 0 := by omega
  have h1 : ¬ vars.length = 1 := by omega
  have h2 : ¬ vars.length = 2 := by omega
  have h12 : ¬ (vars.length = 1 ∨ vars.length = 2) := by
    rintro (h | h)
    · exact h1 h
    · exact h2 h
  constructor
  · rw [spectrumModel_ok dim evalH p kxO kyO kzO res true arr vars hok,
      if_neg h0, if_pos rfl, if_neg h12]
  · rw [spectrumModel_ok dim evalH p kxO kyO kzO res false arr vars hok,
      if_neg h0, if_neg (by simp), if_neg h1, if_neg h2]

/-- Witness for C5 (amended): a concrete three-axis sweep. -/
theorem C5_dimensionality_amended_witness :
    hamiltonian_array zeroEvalR [("m", Value.seq [(0:ℝ), 1])]
        (effMom 2 0 3 (some (.seq [0, 1]))) (effMom 2 1 3 (some (.seq [0, 1])))
        (effMom 2 2 3 (some (.scalar 0)))
      = .ok (⟨[2, 2, 2, 2, 2], List.replicate 8 0⟩,
             [("k_x", [(0:ℝ), 1]), ("k_y", [0, 1]), ("m", [0, 1])]) ∧
    2 < ([("k_x", [(0:ℝ), 1]), ("k_y", [0, 1]), ("m", [0, 1])]).length ∧
    spectrumModel 2 zeroEvalR [("m", Value.seq [(0:ℝ), 1])]
      (some (.seq [0, 1])) (some (.seq [0, 1])) (some (.scalar 0)) 3 true
      = .unboundLocal ∧
    spectrumModel 2 zeroEvalR [("m", Value.seq [(0:ℝ), 1])]
      (some (.seq [0, 1])) (some (.seq [0, 1])) (some (.scalar 0)) 3 false
      = .error4D :=
  ⟨rfl, by norm_num,
   (C5_dimensionality_amended 2 zeroEvalR [("m", Value.seq [(0:ℝ), 1])]
     (some (.seq [0, 1])) (some (.seq [0, 1])) (some (.scalar 0)) 3
     ⟨[2, 2, 2, 2, 2], List.replicate 8 0⟩
     [("k_x", [(0:ℝ), 1]), ("k_y", [0, 1]), ("m", [0, 1])]
     rfl (by norm_num)).1,
   (C5_dimensionality_amended 2 zeroEvalR [("m", Value.seq [(0:ℝ), 1])]
     (some (.seq [0, 1])) (some (.seq [0, 1])) (some (.scalar 0)) 3
     ⟨[2, 2, 2, 2, 2], List.replicate 8 0⟩
     [("k_x", [(0:ℝ), 1]), ("k_y", [0, 1]), ("m", [0, 1])]
     rfl (by norm_num)).2⟩

/-- C10: the `spectrum` entry point with zero swept axes (no sequence-valued
bundle field, all effective momenta scalar) always fails — with the 0D
`ValueError` (or an error propagated out of `hamiltonian_array`) — and never
returns an energies array, even when `return_energies` is true. -/
theorem C10_zero_axes_error {n : ℕ} (dim : ℕ)
    (evalH : Dict ℝ → Value ℝ → Value ℝ → Value ℝ → Except Err (Mat n))
    (p : Dict ℝ) (kxO kyO kzO : Option (Value ℝ)) (res : ℕ) (re : Bool)
    (hp : ∀ f ∈ p, f.2.isIterable = false)
    (hx : (effMom dim 0 res kxO).isIterable = false)
    (hy : (effMom dim 1 res kyO).isIterable = false)
    (hz : (effMom dim 2 res kzO).isIterable = false) :
    (∀ arr, spectrumModel dim evalH p kxO kyO kzO res re ≠ .energies arr) ∧
    (spectrumModel dim evalH p kxO kyO kzO res re = .error0D ∨
      ∃ e, spectrumModel dim evalH p kxO kyO kzO res re = .hamError e) := by
  have hc0 : changingOfParams p = [] :=
    List.filter_eq_nil_iff.mpr (fun f hf => by simp [hp f hf])
  have hch : collectChanging p (effMom dim 0 res kxO) (effMom dim 1 res kyO)
      (effMom dim 2 res kzO) = .ok [] := by
    unfold collectChanging
    rw [hc0]
    simp [addMomentum, hx, hy, hz]
  unfold spectrumModel hamiltonian_array
  rw [hch]
  cases hev : evalH p (effMom dim 0 res kxO) (effMom dim 1 res kyO)
      (effMom dim 2 res kzO) with
  | error e =>
    constructor
    · intro arr h
      exact SpecOutcome.noConfusion h
    · exact Or.inr ⟨e, rfl⟩
  | ok m =>
    constructor
    · intro arr h
      exact SpecOutcome.noConfusion h
    · exact Or.inl rfl

/-- Witness for C10: a concrete all-scalar call fails with the 0D error and
returns no energies. -/
theorem C10_zero_axes_error_witness :
    (∀ f ∈ [("t", Value.scalar (1:ℝ))], f.2.isIterable = false) ∧
    (effMom 2 0 3 (some (Value.scalar (0:ℝ)))).isIterable = false ∧
    (effMom 2 1 3 (some (Value.scalar (0:ℝ)))).isIterable = false ∧
    (effMom 2 2 3 (some (Value.scalar (0:ℝ)))).isIterable = false ∧
    (∀ arr, spectrumModel 2 zeroEvalR [("t", Value.scalar (1:ℝ))]
        (some (.scalar 0)) (some (.scalar 0)) (some (.scalar 0)) 3 true
        ≠ .energies arr) ∧
    (spectrumModel 2 zeroEvalR [("t", Value.scalar (1:ℝ))]
        (some (.scalar 0)) (some (.scalar 0)) (some (.scalar 0)) 3 true
        = .error0D ∨
      ∃ e, spectrumModel 2 zeroEvalR [("t", Value.scalar (1:ℝ))]
        (some (.scalar 0)) (some (.scalar 0)) (some (.scalar 0)) 3 true
        = .hamError e) := by
  have hp : ∀ f ∈ [("t", Value.scalar (1:ℝ))], f.2.isIterable = false := by
    intro f hf
    rcases List.mem_singleton.mp hf with rfl
    rfl
  have h := C10_zero_axes_error 2 zeroEvalR [("t", Value.scalar (1:ℝ))]
    (some (.scalar 0)) (some (.scalar 0)) (some (.scalar 0)) 3 true
    hp rfl rfl rfl
  exact ⟨hp, rfl, rfl, rfl, h.1, h.2⟩

/-- Any member of a list of naturals is bounded by the `foldr max`. -/
theorem le_foldr_max (l : List ℕ) (i : ℕ) (hi : i ∈ l) :
    i ≤ l.foldr max 0 := by
  induction l with
  | nil => simp at hi
  | cons x xs ih =>
    rcases List.mem_cons.mp hi with rfl | hi
    · exact le_max_left _ _
    · exact le_trans (ih hi) (le_max_right _ _)

/-- A fresh identifier is strictly above every identifier in the heap. -/
theorem lt_freshId {α : Type} (h : Heap α) (i : ObjId)
    (hi : i ∈ h.map (fun e => e.1)) : i < freshId h :=
  Nat.lt_succ_of_le (le_foldr_max _ _ hi)

/-- Looking up an existing object is unaffected by appending new objects. -/
theorem lookupObj_append_of_mem {α : Type} (h rest : Heap α) (i : ObjId)
    (hi : i ∈ h.map (fun e => e.1)) :
    lookupObj (h ++ rest) i = lookupObj h i := by
  unfold lookupObj
  rw [List.find?_append]
  obtain ⟨e, he, hei⟩ := List.mem_map.mp hi
  cases hf : h.find? (fun e => e.1 == i) with
  | some e' => simp
  | none =>
    exfalso
    have := List.find?_eq_none.mp hf e he
    simp [hei] at this

/-- Overwriting one object leaves the others' lookups unchanged. -/
theorem lookupObj_writeObj_ne {α : Type} (h : Heap α) (i j : ObjId)
    (d : Dict α) (hij : j ≠ i) :
    lookupObj (writeObj h i d) j = lookupObj h j := by
  induction h with
  | nil => rfl
  | cons e es ih =>
    unfold writeObj at ih ⊢
    rw [List.map_cons]
    by_cases hei : e.1 = i
    · rw [if_pos (by simp [hei])]
      unfold lookupObj at ih ⊢
      rw [List.find?_cons, List.find?_cons]
      have hij' : i ≠ j := Ne.symm hij
      have h1 : ((i, d).1 == j) = false := by
        rw [beq_eq_false_iff_ne]
        exact hij'
      have h2 : (e.1 == j) = false := by
        rw [hei, beq_eq_false_iff_ne]
        exact hij'
      rw [h1, h2]
      exact ih
    · rw [if_neg (by simp [hei])]
      unfold lookupObj at ih ⊢
      rw [List.find?_cons, List.find?_cons]
      cases hej : (e.1 == j) with
      | true => rfl
      | false => exact ih

/-- The per-point bundle mutation touches only the copied object. -/
theorem lookupObj_updateObjMany_ne {α : Type} (h : Heap α) (i j : ObjId)
    (kvs : List (String × Value α)) (hij : j ≠ i) :
    lookupObj (updateObjMany h i kvs) j = lookupObj h j :=
  lookupObj_writeObj_ne h i j _ hij

/-- Folding heap updates that each preserve a lookup preserves the lookup. -/
theorem lookupObj_foldl {α β : Type} (g : Heap α → β → Heap α) (j : ObjId)
    (hg : ∀ hh b, lookupObj (g hh b) j = lookupObj hh j) :
    ∀ (l : List β) (h : Heap α), lookupObj (l.foldl g h) j = lookupObj h j := by
  intro l
  induction l with
  | nil => intro h; rfl
  | cons b bs ih =>
    intro h
    rw [List.foldl_cons, ih (g h b), hg h b]

/-- C9: `hamiltonian_array` leaves the caller's parameter bundle unchanged:
the bundle object is copied (`pars = copy(p)`, line 300) before any per-point
mutation (`pars.__dict__.update(values)`, line 346), so after the whole sweep
the caller's object holds exactly its original fields. -/
theorem C9_params_unchanged {α : Type} (h : Heap α) (pId : ObjId)
    (kx ky kz : Value α) (hmem : pId ∈ h.map (fun e => e.1)) :
    lookupObj (hamiltonian_array_heap h pId kx ky kz).1 pId
      = lookupObj h pId := by
  have hne : pId ≠ freshId h := Nat.ne_of_lt (lt_freshId h pId hmem)
  have happ : ∀ d : Dict α,
      lookupObj (h ++ [(freshId h, d)]) pId = lookupObj h pId :=
    fun d => lookupObj_append_of_mem h _ pId hmem
  simp only [hamiltonian_array_heap, copyObj]
  split
  · exact happ _
  · split
    · exact happ _
    · rw [lookupObj_foldl _ pId
        (fun hh b => lookupObj_updateObjMany_ne hh _ pId _ hne)]
      exact happ _

/-- Witness for C9: a concrete heap holding one bundle with a swept `m`
field; after the call the caller's bundle is unchanged. -/
theorem C9_params_unchanged_witness :
    (0 ∈ ([(0, [("m", Value.seq [(0:ℚ), 1]), ("t", .scalar 1)])] : Heap ℚ).map
      (fun e => e.1)) ∧
    lookupObj (hamiltonian_array_heap
        [(0, [("m", Value.seq [(0:ℚ), 1]), ("t", .scalar 1)])] 0
        (.scalar 0) (.scalar 0) (.scalar 0)).1 0
      = lookupObj [(0, [("m", Value.seq [(0:ℚ), 1]), ("t", .scalar 1)])] 0 :=
  ⟨by decide,
   C9_params_unchanged [(0, [("m", Value.seq [(0:ℚ), 1]), ("t", .scalar 1)])] 0
     (.scalar 0) (.scalar 0) (.scalar 0) (by decide)⟩

/-- At `t_2 = 0` the next-nearest-neighbour diagonal contribution vanishes. -/
theorem nnnDiagSum_zero (k1 k2 : ℝ) (offs : List (ℤ × ℤ)) :
    nnnDiagSum 0 k1 k2 offs = 0 := by
  induction offs with
  | nil => rfl
  | cons d ds ih =>
    rw [nnnDiagSum, List.map_cons, List.sum_cons]
    rw [nnnDiagSum] at ih
    rw [ih]
    simp

/-- At `t_2 = 0` the bulk Bloch Hamiltonian is exactly Hermitian. -/
theorem haldaneBloch_t2_zero_hermitian (m t k1 k2 : ℝ) :
    (haldaneBloch m t 0 k1 k2).conjTranspose = haldaneBloch m t 0 k1 k2 := by
  unfold haldaneBloch
  rw [nnnDiagSum_zero, nnnDiagSum_zero]
  ext i j
  fin_cases i <;> fin_cases j <;>
    simp [Matrix.conjTranspose_apply, Complex.conj_ofReal]

/-- Any matrix produced by the bulk evaluator from a bundle whose `t_2` field
is the scalar `0` is Hermitian. -/
theorem evalBulk_hermitian {q : Dict ℝ} {a b c : Value ℝ} {M : Mat 2}
    (ht2 : dictGet q "t_2" = some (.scalar 0))
    (hM : evalBulk q a b c = .ok M) : M.conjTranspose = M := by
  unfold evalBulk at hM
  cases a with
  | seq xs => exact Except.noConfusion hM
  | scalar x =>
    cases b with
    | seq ys => exact Except.noConfusion hM
    | scalar y =>
      cases c with
      | seq zs => exact Except.noConfusion hM
      | scalar z =>
        cases hm' : dictGet q "m" with
        | none =>
          rw [hm'] at hM
          exact Except.noConfusion hM
        | some vm =>
          rw [hm'] at hM
          cases vm with
          | seq ms => exact Except.noConfusion hM
          | scalar m =>
            cases ht' : dictGet q "t" with
            | none =>
              rw [ht'] at hM
              exact Except.noConfusion hM
            | some vt =>
              rw [ht'] at hM
              cases vt with
              | seq ts => exact Except.noConfusion hM
              | scalar t =>
                rw [ht2] at hM
                have hM' : (match momentum_to_lattice_2D x y z with
                    | Except.ok klat =>
                      Except.ok (haldaneBloch m t 0 (klat.getD 0 0)
                        (klat.getD 1 0))
                    | Except.error e => Except.error e) = Except.ok M := hM
                rw [momentum_to_lattice_2D_eq] at hM'
                cases hM'
                exact haldaneBloch_t2_zero_hermitian m t _ _

/-- Keys after a sorted insertion are the inserted key plus the old keys. -/
theorem mem_insertSorted_keys {α : Type} (f : String × Value α)
    (l : Dict α) (k : String) :
    k ∈ (insertSorted f l).map (fun g => g.1) ↔
      k = f.1 ∨ k ∈ l.map (fun g => g.1) := by
  induction l with
  | nil => simp [insertSorted, eq_comm]
  | cons g gs ih =>
    rw [insertSorted]
    split
    · simp [eq_comm]
    · simp only [List.map_cons, List.mem_cons, ih]
      tauto

/-- Sorting the changing set permutes its keys. -/
theorem mem_sortDict_keys {α : Type} (l : Dict α) (k : String) :
    k ∈ (sortDict l).map (fun g => g.1) ↔ k ∈ l.map (fun g => g.1) := by
  induction l with
  | nil => simp [sortDict]
  | cons f fs ih =>
    rw [sortDict, mem_insertSorted_keys]
    simp only [List.map_cons, List.mem_cons, ih]

/-- Every key of the collected changing set is an iterable bundle field or a
reserved momentum name. -/
theorem collectChanging_keys {α : Type} {p : Dict α} {kx ky kz : Value α}
    {ch : Dict α} (hc : collectChanging p kx ky kz = .ok ch) :
    ∀ k ∈ ch.map (fun f => f.1),
      k ∈ (changingOfParams p).map (fun f => f.1) ∨
        k = "k_x" ∨ k = "k_y" ∨ k = "k_z" := by
  unfold collectChanging at hc
  intro k hk
  cases h1 : addMomentum (changingOfParams p) "k_x" kx with
  | error e =>
    rw [h1] at hc
    exact Except.noConfusion hc
  | ok c1 =>
    rw [h1] at hc
    have hc1 : (match addMomentum c1 "k_y" ky with
        | Except.error e => Except.error e
        | Except.ok c2 => addMomentum c2 "k_z" kz) = Except.ok ch := hc
    cases h2 : addMomentum c1 "k_y" ky with
    | error e =>
      rw [h2] at hc1
      exact Except.noConfusion hc1
    | ok c2 =>
      rw [h2] at hc1
      have hc3 : addMomentum c2 "k_z" kz = .ok ch := hc1
      rcases addMomentum_ok_keys hc3 k hk with hk2 | rfl
      · rcases addMomentum_ok_keys h2 k hk2 with hk1 | rfl
        · rcases addMomentum_ok_keys h1 k hk1 with hk0 | rfl
          · exact Or.inl hk0
          · exact Or.inr (Or.inl rfl)
        · exact Or.inr (Or.inr (Or.inl rfl))
      · exact Or.inr (Or.inr (Or.inr rfl))

/-- A key of the iterable-field set comes from an iterable field. -/
theorem changingOfParams_key_iterable {α : Type} {p : Dict α} {k : String}
    (h : k ∈ (changingOfParams p).map (fun f => f.1)) :
    ∃ v, (k, v) ∈ p ∧ v.isIterable = true := by
  obtain ⟨f, hf, rfl⟩ := List.mem_map.mp h
  rw [changingOfParams, List.mem_filter] at hf
  exact ⟨f.2, hf.1, hf.2⟩

/-- With duplicate-free keys, membership determines the lookup. -/
theorem dictGet_of_mem_nodup {α : Type} {p : Dict α} {k : String}
    {v : Value α} (hnd : (p.map (fun f => f.1)).Nodup)
    (hmem : (k, v) ∈ p) : dictGet p k = some v := by
  induction p with
  | nil => simp at hmem
  | cons f fs ih =>
    rw [List.map_cons, List.nodup_cons] at hnd
    rcases List.mem_cons.mp hmem with rfl | hmem
    · unfold dictGet
      rw [List.find?_cons_of_pos _ (by simp)]
      rfl
    · have hk : f.1 ≠ k := by
        intro hfk
        exact hnd.1 (hfk ▸ List.mem_map.mpr ⟨(k, v), hmem, rfl⟩)
      unfold dictGet at ih ⊢
      rw [List.find?_cons_of_neg _ (by simp [hk])]
      exact ih hnd.2 hmem

/-- Updating a different key does not change a lookup (replacement form). -/
theorem find?_map_update {α : Type} (d : Dict α) (key k' : String)
    (v : Value α) (hne : k' ≠ key) :
    (d.map (fun f => if f.1 == key then (key, v) else f)).find?
        (fun f => f.1 == k')
      = d.find? (fun f => f.1 == k') := by
  induction d with
  | nil => rfl
  | cons f fs ih =>
    rw [List.map_cons]
    by_cases hfk : f.1 = key
    · rw [if_pos (by simp [hfk])]
      rw [List.find?_cons_of_neg _ (by simp [Ne.symm hne]),
        List.find?_cons_of_neg _ (by simp [hfk, Ne.symm hne])]
      exact ih
    · rw [if_neg (by simp [hfk])]
      by_cases hfk' : f.1 = k'
      · rw [List.find?_cons_of_pos _ (by simp [hfk']),
          List.find?_cons_of_pos _ (by simp [hfk'])]
      · rw [List.find?_cons_of_neg _ (by simp [hfk']),
          List.find?_cons_of_neg _ (by simp [hfk'])]
        exact ih

/-- Updating a different key does not change a lookup. -/
theorem dictGet_dictUpdate_ne {α : Type} (d : Dict α) (key k' : String)
    (v : Value α) (hne : k' ≠ key) :
    dictGet (dictUpdate d key v) k' = dictGet d k' := by
  unfold dictUpdate
  split
  · unfold dictGet
    rw [find?_map_update d key k' v hne]
  · unfold dictGet
    rw [List.find?_append]
    have h1 : ([(key, v)].find? (fun f => f.1 == k')) = none := by
      rw [List.find?_cons_of_neg _ (by simp [Ne.symm hne])]
      rfl
    rw [h1]
    cases (d.find? fun f => f.1 == k') <;> rfl

/-- Updating keys that avoid `k'` does not change the lookup of `k'`. -/
theorem dictGet_dictUpdateMany_not_mem {α : Type} (k' : String) :
    ∀ (kvs : List (String × Value α)) (d : Dict α),
      k' ∉ kvs.map (fun f => f.1) →
      dictGet (dictUpdateMany d kvs) k' = dictGet d k' := by
  intro kvs
  induction kvs with
  | nil => intro d _; rfl
  | cons kv rest ih =>
    intro d hk
    rw [List.map_cons, List.mem_cons] at hk
    push_neg at hk
    rw [dictUpdateMany, List.foldl_cons]
    have := ih (dictUpdate d kv.1 kv.2) hk.2
    rw [dictUpdateMany] at this
    rw [this, dictGet_dictUpdate_ne d kv.1 k' kv.2 hk.1]

/-- Every matrix in a `hamiltonian_array` result was produced by the
evaluator: either at the single fixed point, or at one grid point of the
sweep through `hamiltonian(**values)`. -/
theorem hamMatrices_mem {α : Type} {n : ℕ}
    (evalH : Dict α → Value α → Value α → Value α → Except Err (Mat n))
    (p : Dict α) (kx ky kz : Value α) (M : Mat n)
    (hM : M ∈ hamMatrices (hamiltonian_array evalH p kx ky kz)) :
    evalH p kx ky kz = .ok M ∨
    ∃ ch combo, collectChanging p kx ky kz = .ok ch ∧
      combo ∈ cartProd ((sortDict ch).map (fun f => f.2.toSeq)) ∧
      pointEval evalH p kx ky kz ((sortDict ch).map (fun f => f.1)) combo
        = .ok M := by
  unfold hamiltonian_array at hM
  split at hM
  · simp [hamMatrices] at hM
  · rename_i ch heq
    split at hM
    · split at hM
      · simp [hamMatrices] at hM
      · rename_i m heq2
        simp [hamMatrices] at hM
        subst hM
        exact Or.inl heq2
    · split at hM
      · simp [hamMatrices] at hM
      · rename_i hams heq2
        split at hM
        · simp [hamMatrices] at hM
        · simp only [hamMatrices] at hM
          obtain ⟨combo, hcombo, hpt⟩ := evalList_mem heq2 M hM
          exact Or.inr ⟨ch, combo, heq, hcombo, hpt⟩

/-- C6: for every parameter bundle whose `t_2` field is the scalar `0` (and
whose field names are unique, as Python attribute names are) and any momenta,
every Hamiltonian matrix produced by `hamiltonian_array` for the bulk Haldane
system equals its own conjugate transpose. -/
theorem C6_hermitian_t2_zero (p : Dict ℝ) (kx ky kz : Value ℝ)
    (hnd : (p.map (fun f => f.1)).Nodup)
    (ht2 : dictGet p "t_2" = some (.scalar 0)) :
    ∀ M ∈ hamMatrices (hamiltonian_array evalBulk p kx ky kz),
      M.conjTranspose = M := by
  intro M hM
  rcases hamMatrices_mem evalBulk p kx ky kz M hM with
    hev | ⟨ch, combo, hc, hcombo, hpt⟩
  · exact evalBulk_hermitian ht2 hev
  · rw [pointEval] at hpt
    have hkeys : "t_2" ∉
        (((sortDict ch).map (fun f => f.1)).zip
          (combo.map Value.scalar)).map (fun f => f.1) := by
      intro hmemz
      obtain ⟨pr, hpr, hpr1⟩ := List.mem_map.mp hmemz
      obtain ⟨a, b⟩ := pr
      have h1 : a ∈ (sortDict ch).map (fun f => f.1) :=
        (List.of_mem_zip hpr).1
      rw [show a = "t_2" from hpr1] at h1
      have h2 := (mem_sortDict_keys ch "t_2").mp h1
      rcases collectChanging_keys hc "t_2" h2 with hp' | h | h | h
      · obtain ⟨v, hv, hit⟩ := changingOfParams_key_iterable hp'
        have hlook := dictGet_of_mem_nodup hnd hv
        have hveq : v = Value.scalar 0 :=
          Option.some.inj (hlook.symm.trans ht2)
        rw [hveq] at hit
        exact Bool.noConfusion hit
      · exact absurd h (by decide)
      · exact absurd h (by decide)
      · exact absurd h (by decide)
    have hq := dictGet_dictUpdateMany_not_mem "t_2" _ p hkeys
    rw [ht2] at hq
    exact evalBulk_hermitian hq hpt

/-- With no swept axes, `hamiltonian_array` returns the single-entry array
(`hamiltonians[None, ...]`, functions.py lines 336-343). -/
theorem hamiltonian_array_fixed {α : Type} {n : ℕ}
    (evalH : Dict α → Value α → Value α → Value α → Except Err (Mat n))
    (p : Dict α) (kx ky kz : Value α) (M : Mat n)
    (hch : collectChanging p kx ky kz = .ok [])
    (hev : evalH p kx ky kz = .ok M) :
    hamiltonian_array evalH p kx ky kz = .ok (⟨[1, n, n], [M]⟩, []) := by
  unfold hamiltonian_array
  split
  · rename_i e heq
    rw [hch] at heq
    exact Except.noConfusion heq
  · rename_i ch heq
    rw [hch] at heq
    have hch0 : ch = [] := (Except.ok.inj heq).symm
    subst hch0
    rw [if_pos (show (List.isEmpty ([] : Dict α)) = true from rfl), hev]

/-- Witness for C6: a concrete bundle with `t_2 = 0` at a fixed momentum;
the call produces exactly one matrix and it is Hermitian. -/
theorem C6_hermitian_t2_zero_witness :
    (([("m", Value.scalar ((1:ℝ)/2)), ("t", .scalar 1), ("t_2", .scalar 0),
       ("phi", .scalar 0)].map (fun f => f.1)).Nodup) ∧
    dictGet [("m", Value.scalar ((1:ℝ)/2)), ("t", .scalar 1),
      ("t_2", .scalar 0), ("phi", .scalar 0)] "t_2"
      = some (Value.scalar (0:ℝ)) ∧
    (hamMatrices (hamiltonian_array evalBulk
        [("m", Value.scalar ((1:ℝ)/2)), ("t", .scalar 1), ("t_2", .scalar 0),
         ("phi", .scalar 0)] (.scalar 0) (.scalar 0) (.scalar 0))).length
      = 1 ∧
    ∀ M ∈ hamMatrices (hamiltonian_array evalBulk
        [("m", Value.scalar ((1:ℝ)/2)), ("t", .scalar 1), ("t_2", .scalar 0),
         ("phi", .scalar 0)] (.scalar 0) (.scalar 0) (.scalar 0)),
      M.conjTranspose = M := by
  refine ⟨by decide, rfl, ?_,
    C6_hermitian_t2_zero _ (.scalar 0) (.scalar 0) (.scalar 0)
      (by decide) rfl⟩
  have hstep : evalBulk
      [("m", Value.scalar ((1:ℝ)/2)), ("t", .scalar 1), ("t_2", .scalar 0),
       ("phi", .scalar 0)] (.scalar 0) (.scalar 0) (.scalar 0)
      = (match momentum_to_lattice_2D 0 0 0 with
         | Except.ok klat =>
           Except.ok (haldaneBloch (1/2) 1 0 (klat.getD 0 0) (klat.getD 1 0))
         | Except.error e => Except.error e) := rfl
  rw [momentum_to_lattice_2D_eq] at hstep
  rw [hamiltonian_array_fixed evalBulk _ _ _ _ _ (by rfl) hstep]
  rfl
